import Mathlib

/-!
Verification of the irregular communication plan and exchange primitive of
pyzoltan (the ZComm wrapper over Zoltan unstructured communication).  The
primitive itself (pyzoltan.core.zoltan_comm) is not among the repository
sources; only its usage, src/pyzoltan/core/tests/zcomm.py, is.  The
operational definitions below are therefore modelled from the spec, with
the sentinel value and the default element width taken from the usage file.

The model is global: `destLists` holds one destination list per process of
the group, so cross-process properties (the count handshake, the data
exchange) are expressed as functions of the whole family.  Buffers are flat
byte lists; an element is a run of `elementWidth` consecutive bytes.
-/

namespace ZComm

variable {α : Type*}

/-- The retain sentinel: a destination entry of -1 keeps the element on the
owning process (src/pyzoltan/core/tests/zcomm.py lines 27-28 overwrite
entries destined to the own rank with -1). -/
def sentinel : Int := -1

/-- Modelled from the spec: the error taxonomy of the primitive (section 7);
the implementation pyzoltan.core.zoltan_comm is missing from the sources. -/
inductive CommError where
  | InvalidDestination
  | BufferSizeMismatch
  | GroupMismatch
  | TransportFailure
deriving DecidableEq, Repr

/-- A destination entry is valid for group size N when it is a rank in
[0, N) or the retain sentinel. -/
def validEntry (N : Nat) (e : Int) : Bool :=
  (decide (0 ≤ e) && decide (e < (N : Int))) || e == sentinel

/-- Number of local elements whose destination entry is rank p. -/
def sendCountTo (dl : List Int) (p : Nat) : Nat :=
  (dl.filter (fun e => e == (p : Int))).length

/-- Number of local elements whose destination entry is the sentinel. -/
def retainCount (dl : List Int) : Nat :=
  (dl.filter (fun e => e == sentinel)).length

/-- c 0 + ... + c (n-1): the exclusive prefix sums used for buffer offsets. -/
def offSum (c : Nat → Nat) : Nat → Nat
  | 0 => 0
  | n + 1 => offSum c n + c n

/-- f 0 ++ f 1 ++ ... ++ f (n-1): concatenation of per-peer runs in
increasing rank order. -/
def concatMapN (f : Nat → List α) : Nat → List α
  | 0 => []
  | n + 1 => concatMapN f n ++ f n

/-- What process p declares it sends to q; the count handshake (spec
section 4.1 step 2) makes this the count q receives from p. -/
def recvCountFrom (destLists : List (List Int)) (p q : Nat) : Nat :=
  sendCountTo (destLists.getD p []) q

/-- Sum of the first n receive counts of process q: the receive-buffer
offset of the slot for peer n, in elements. -/
def sumRecv (destLists : List (List Int)) (q n : Nat) : Nat :=
  offSum (fun p => recvCountFrom destLists p q) n

/-- Local element indices destined to rank p, in increasing index order. -/
def indicesTo (dl : List Int) (p : Nat) : List Nat :=
  (List.range dl.length).filter (fun i => dl.getD i sentinel == (p : Int))

/-- Local element indices retained locally, in increasing index order. -/
def retainIndices (dl : List Int) : List Nat :=
  (List.range dl.length).filter (fun i => dl.getD i 0 == sentinel)

/-- Expected element count of a send buffer: totalSend plus the locally
retained elements (spec section 4.2 input constraints). -/
def sendBufLen (dl : List Int) (N : Nat) : Nat :=
  offSum (sendCountTo dl) N + retainCount dl

/-- Modelled from the spec: the CommunicationPlan data structure (spec
section 3); the implementation pyzoltan.core.zoltan_comm is missing from
the sources.  `elementWidth` is the reconfigurable payload width
(ZComm.set_nbytes in the usage). -/
structure CommunicationPlan where
  groupSize : Nat
  channelTag : Int
  sendCounts : List Nat
  recvCounts : List Nat
  sendOrder : List Nat
  recvOffsets : List Nat
  localRetainCount : Nat
  totalSend : Nat
  totalReceive : Nat
  elementWidth : Nat
deriving DecidableEq, Repr

/-- Modelled from the spec: the plan a successful build returns on process
q (spec section 4.1 steps 1-4); the builder itself is missing from the
sources.  recvCounts come from the count handshake, recvOffsets are the
exclusive prefix sums of recvCounts, sendOrder stably groups element
indices by destination rank with retained elements last, and the element
width defaults to 8 bytes (the usage exchanges float64 payloads before any
set_nbytes call). -/
def buildPlan (N : Nat) (tag : Int) (destLists : List (List Int)) (q : Nat) :
    CommunicationPlan :=
  let dl := destLists.getD q []
  { groupSize := N
    channelTag := tag
    sendCounts := (List.range N).map (sendCountTo dl)
    recvCounts := (List.range N).map (fun p => recvCountFrom destLists p q)
    sendOrder := concatMapN (indicesTo dl) N ++ retainIndices dl
    recvOffsets := (List.range N).map (sumRecv destLists q)
    localRetainCount := retainCount dl
    totalSend := offSum (sendCountTo dl) N
    totalReceive := sumRecv destLists q N + retainCount dl
    elementWidth := 8 }

/-- Modelled from the spec: build validates the local destination list and
returns the plan, failing with InvalidDestination when an entry is neither
a rank in [0, N) nor the sentinel (spec section 4.1); the builder itself is
missing from the sources. -/
def build (N : Nat) (tag : Int) (destLists : List (List Int)) (q : Nat) :
    Except CommError CommunicationPlan :=
  if (destLists.getD q []).all (validEntry N) then
    .ok (buildPlan N tag destLists q)
  else
    .error .InvalidDestination

/-- Modelled from the spec: setElementWidth (ZComm.set_nbytes) reconfigures
a built plan for a different payload width without rebuilding the
topology; the implementation is missing from the sources. -/
def setElementWidth (plan : CommunicationPlan) (w : Nat) : CommunicationPlan :=
  { plan with elementWidth := w }

/-- The run of bytes of a send buffer (arranged per sendOrder: one
contiguous run per destination rank in increasing rank order, retained
elements last) addressed to rank p, at element width w. -/
def sendRun (dl : List Int) (buf : List Nat) (w p : Nat) : List Nat :=
  (buf.drop (offSum (sendCountTo dl) p * w)).take (sendCountTo dl p * w)

/-- The trailing run of a send buffer holding the retained elements. -/
def retainRun (N : Nat) (dl : List Int) (buf : List Nat) (w : Nat) : List Nat :=
  (buf.drop (offSum (sendCountTo dl) N * w)).take (retainCount dl * w)

/-- Modelled from the spec: the receive buffer Do produces on process q
(spec section 4.2 behavior): each peer's run lands at that peer's
recvOffsets slot in increasing rank order, and the retained elements are
copied into the trailing slot without the transport; the exchanger itself
is missing from the sources. -/
def DoOut (N : Nat) (destLists : List (List Int)) (bufs : List (List Nat))
    (w q : Nat) : List Nat :=
  concatMapN (fun p => sendRun (destLists.getD p []) (bufs.getD p []) w q) N
    ++ retainRun N (destLists.getD q []) (bufs.getD q []) w

/-- Modelled from the spec: Do (ZComm.Comm_Do) checks the send buffer
length against totalSend + localRetainCount elements at the plan's element
width, failing with BufferSizeMismatch, and otherwise produces the receive
buffer; the exchanger itself is missing from the sources. -/
def Do (N : Nat) (destLists : List (List Int)) (bufs : List (List Nat))
    (q : Nat) (plan : CommunicationPlan) : Except CommError (List Nat) :=
  if (bufs.getD q []).length
      = (plan.totalSend + plan.localRetainCount) * plan.elementWidth then
    .ok (DoOut N destLists bufs plan.elementWidth q)
  else
    .error .BufferSizeMismatch

/-- The run peer p sends back to q under the reverse operation: the slice
of p's receive-shaped buffer at p's receive offset for q. -/
def revRun (destLists : List (List Int)) (buf : List Nat) (w p q : Nat) :
    List Nat :=
  (buf.drop (sumRecv destLists p q * w)).take (recvCountFrom destLists q p * w)

/-- Modelled from the spec: the buffer DoReverse produces on process q
(topology inverted, spec section 4.2): from each peer p, the run that q's
data occupied in p's receive buffer flows back, in increasing rank order,
followed by q's own retained elements; the exchanger itself is missing
from the sources. -/
def DoReverseOut (N : Nat) (destLists : List (List Int))
    (bufs : List (List Nat)) (w q : Nat) : List Nat :=
  concatMapN (fun p => revRun destLists (bufs.getD p []) w p q) N
    ++ ((bufs.getD q []).drop (sumRecv destLists q N * w)).take
        (retainCount (destLists.getD q []) * w)

/-- Modelled from the spec: DoReverse with its buffer length check (a
reverse send buffer is shaped like a Do receive buffer of totalReceive
elements); the exchanger itself is missing from the sources. -/
def DoReverse (N : Nat) (destLists : List (List Int)) (bufs : List (List Nat))
    (q : Nat) (plan : CommunicationPlan) : Except CommError (List Nat) :=
  if (bufs.getD q []).length = plan.totalReceive * plan.elementWidth then
    .ok (DoReverseOut N destLists bufs plan.elementWidth q)
  else
    .error .BufferSizeMismatch

/-! ### Helper lemmas about offsets, runs and concatenation -/

theorem take_add_slice (l : List α) (a b : Nat) :
    l.take (a + b) = l.take a ++ (l.drop a).take b := by
  induction a generalizing l with
  | zero => simp
  | succ a ih =>
      cases l with
      | nil => simp
      | cons x xs => simp [Nat.succ_add, ih]

theorem offSum_mul (c : Nat → Nat) (w n : Nat) :
    offSum (fun i => c i * w) n = offSum c n * w := by
  induction n with
  | zero => simp [offSum]
  | succ n ih => simp [offSum, ih, Nat.add_mul]

theorem offSum_mono (c : Nat → Nat) {m n : Nat} (h : m ≤ n) :
    offSum c m ≤ offSum c n := by
  induction n, h using Nat.le_induction with
  | base => exact Nat.le_refl _
  | succ n hmn ih => exact Nat.le_trans ih (Nat.le_add_right _ _)

theorem concatMapN_congr {f g : Nat → List α} (n : Nat)
    (h : ∀ i, i < n → f i = g i) :
    concatMapN f n = concatMapN g n := by
  induction n with
  | zero => rfl
  | succ n ih =>
      simp only [concatMapN, ih (fun i hi => h i (Nat.lt_succ_of_lt hi)),
        h n (Nat.lt_succ_self n)]

theorem concatMapN_length (f : Nat → List α) (c : Nat → Nat) (n : Nat)
    (h : ∀ i, i < n → (f i).length = c i) :
    (concatMapN f n).length = offSum c n := by
  induction n with
  | zero => rfl
  | succ n ih =>
      simp only [concatMapN, offSum, List.length_append,
        ih (fun i hi => h i (Nat.lt_succ_of_lt hi)), h n (Nat.lt_succ_self n)]

theorem concatMapN_take (l : List α) (d : Nat → Nat) (n : Nat) :
    concatMapN (fun p => (l.drop (offSum d p)).take (d p)) n
      = l.take (offSum d n) := by
  induction n with
  | zero => rfl
  | succ n ih =>
      simp only [concatMapN, ih]
      exact (take_add_slice l (offSum d n) (d n)).symm

theorem concatMapN_extract (f : Nat → List α) (d : Nat → Nat) {n q : Nat}
    (hq : q < n) (h : ∀ i, i < n → (f i).length = d i) :
    ((concatMapN f n).drop (offSum d q)).take (d q) = f q := by
  induction n with
  | zero => exact absurd hq (Nat.not_lt_zero q)
  | succ n ih =>
      rcases Nat.lt_succ_iff_lt_or_eq.mp hq with hlt | rfl
      · have hlen : (concatMapN f n).length = offSum d n :=
          concatMapN_length f d n (fun i hi => h i (Nat.lt_succ_of_lt hi))
        have h1 : offSum d q ≤ (concatMapN f n).length := by
          rw [hlen]; exact offSum_mono d (Nat.le_of_lt hlt)
        have h2 : offSum d q + d q ≤ offSum d n := offSum_mono d hlt
        have h3 : d q ≤ ((concatMapN f n).drop (offSum d q)).length := by
          rw [List.length_drop, hlen]; omega
        rw [show concatMapN f (n + 1) = concatMapN f n ++ f n from rfl,
          List.drop_append_of_le_length h1, List.take_append_of_le_length h3]
        exact ih hlt (fun i hi => h i (Nat.lt_succ_of_lt hi))
      · have hlen : (concatMapN f q).length = offSum d q :=
          concatMapN_length f d q (fun i hi => h i (Nat.lt_succ_of_lt hi))
        rw [show concatMapN f (q + 1) = concatMapN f q ++ f q from rfl, ← hlen,
          List.drop_left, ← h q (Nat.lt_succ_self q), List.take_length]

theorem slice_length (l : List α) {a b : Nat} (h : a + b ≤ l.length) :
    ((l.drop a).take b).length = b := by
  rw [List.length_take, List.length_drop]; omega

theorem getD_map_range (f : Nat → α) (d : α) {n i : Nat} (h : i < n) :
    ((List.range n).map f).getD i d = f i := by
  rw [List.getD_eq_getElem _ _ (by simpa using h), List.getElem_map,
    List.getElem_range]

theorem sum_range_map (f : Nat → Nat) (n : Nat) :
    ((List.range n).map f).sum = offSum f n := by
  induction n with
  | zero => rfl
  | succ n ih =>
      rw [List.range_succ]
      simp [ih, offSum]

/-! ### Lemmas about the runs of the exchange -/

theorem sendRun_length (dl : List Int) (buf : List Nat) (w : Nat) {p N : Nat}
    (hp : p < N) (hbuf : buf.length = sendBufLen dl N * w) :
    (sendRun dl buf w p).length = sendCountTo dl p * w := by
  apply slice_length
  rw [hbuf]
  calc offSum (sendCountTo dl) p * w + sendCountTo dl p * w
      = (offSum (sendCountTo dl) p + sendCountTo dl p) * w :=
        (Nat.add_mul _ _ _).symm
    _ ≤ offSum (sendCountTo dl) N * w :=
        Nat.mul_le_mul_right w (offSum_mono _ hp)
    _ ≤ sendBufLen dl N * w :=
        Nat.mul_le_mul_right w (Nat.le_add_right _ _)

theorem retainRun_length (N : Nat) (dl : List Int) (buf : List Nat) (w : Nat)
    (hbuf : buf.length = sendBufLen dl N * w) :
    (retainRun N dl buf w).length = retainCount dl * w := by
  apply slice_length
  rw [hbuf, sendBufLen, Nat.add_mul]

theorem DoOut_length {N : Nat} (destLists : List (List Int))
    (bufs : List (List Nat)) (w : Nat) {q : Nat} (hq : q < N)
    (hbufs : ∀ p, p < N →
      (bufs.getD p []).length = sendBufLen (destLists.getD p []) N * w) :
    (DoOut N destLists bufs w q).length
      = (sumRecv destLists q N + retainCount (destLists.getD q [])) * w := by
  rw [DoOut, List.length_append,
    concatMapN_length _ (fun p => recvCountFrom destLists p q * w) N
      (fun p hp => sendRun_length _ _ _ hq (hbufs p hp)),
    retainRun_length N _ _ w (hbufs q hq), offSum_mul, Nat.add_mul]
  rfl

theorem DoOut_slice {N : Nat} (destLists : List (List Int))
    (bufs : List (List Nat)) (w : Nat) {p q : Nat} (hp : p < N) (hq : q < N)
    (hbufs : ∀ r, r < N →
      (bufs.getD r []).length = sendBufLen (destLists.getD r []) N * w) :
    ((DoOut N destLists bufs w q).drop (sumRecv destLists q p * w)).take
        (recvCountFrom destLists p q * w)
      = sendRun (destLists.getD p []) (bufs.getD p []) w q := by
  have hrun : ∀ r, r < N →
      (sendRun (destLists.getD r []) (bufs.getD r []) w q).length
        = (fun r => recvCountFrom destLists r q * w) r :=
    fun r hr => sendRun_length _ _ _ hq (hbufs r hr)
  have hClen :
      (concatMapN
          (fun r => sendRun (destLists.getD r []) (bufs.getD r []) w q) N).length
        = offSum (fun r => recvCountFrom destLists r q * w) N :=
    concatMapN_length _ _ N hrun
  have hoff : sumRecv destLists q p * w
      = offSum (fun r => recvCountFrom destLists r q * w) p :=
    (offSum_mul (fun r => recvCountFrom destLists r q) w p).symm
  have h1 : offSum (fun r => recvCountFrom destLists r q * w) p
      ≤ (concatMapN
          (fun r => sendRun (destLists.getD r []) (bufs.getD r []) w q) N).length := by
    rw [hClen]; exact offSum_mono _ (Nat.le_of_lt hp)
  have h2 : offSum (fun r => recvCountFrom destLists r q * w) p
        + recvCountFrom destLists p q * w
      ≤ offSum (fun r => recvCountFrom destLists r q * w) N :=
    offSum_mono _ hp
  have h3 : recvCountFrom destLists p q * w
      ≤ ((concatMapN
          (fun r => sendRun (destLists.getD r []) (bufs.getD r []) w q) N).drop
            (offSum (fun r => recvCountFrom destLists r q * w) p)).length := by
    rw [List.length_drop, hClen]; omega
  rw [DoOut, hoff, List.drop_append_of_le_length h1,
    List.take_append_of_le_length h3]
  exact concatMapN_extract _ (fun r => recvCountFrom destLists r q * w) hp hrun

theorem DoOut_retain {N : Nat} (destLists : List (List Int))
    (bufs : List (List Nat)) (w : Nat) {q : Nat} (hq : q < N)
    (hbufs : ∀ r, r < N →
      (bufs.getD r []).length = sendBufLen (destLists.getD r []) N * w) :
    (DoOut N destLists bufs w q).drop (sumRecv destLists q N * w)
      = retainRun N (destLists.getD q []) (bufs.getD q []) w := by
  rw [DoOut]
  refine List.drop_left' ?_
  rw [concatMapN_length _ (fun r => recvCountFrom destLists r q * w) N
    (fun r hr => sendRun_length _ _ _ hq (hbufs r hr)), offSum_mul]
  rfl

theorem roundTrip {N : Nat} (destLists : List (List Int))
    (bufs : List (List Nat)) (w : Nat) {q : Nat} (hq : q < N)
    (hbufs : ∀ p, p < N →
      (bufs.getD p []).length = sendBufLen (destLists.getD p []) N * w) :
    DoReverseOut N destLists
        ((List.range N).map (fun p => DoOut N destLists bufs w p)) w q
      = bufs.getD q [] := by
  have houts : ∀ p, p < N →
      (((List.range N).map (fun p => DoOut N destLists bufs w p)).getD p [])
        = DoOut N destLists bufs w p :=
    fun p hp => getD_map_range _ _ hp
  have hrev : ∀ p, p < N →
      revRun destLists
          (((List.range N).map (fun p => DoOut N destLists bufs w p)).getD p [])
          w p q
        = sendRun (destLists.getD q []) (bufs.getD q []) w p := by
    intro p hp
    rw [houts p hp, revRun]
    exact DoOut_slice destLists bufs w hq hp hbufs
  have hslices : ∀ p, p < N →
      sendRun (destLists.getD q []) (bufs.getD q []) w p
        = ((bufs.getD q []).drop
              (offSum (fun i => sendCountTo (destLists.getD q []) i * w) p)).take
            (sendCountTo (destLists.getD q []) p * w) := by
    intro p hp
    rw [sendRun, offSum_mul]
  rw [DoReverseOut, concatMapN_congr N hrev, concatMapN_congr N hslices,
    concatMapN_take (bufs.getD q []) (fun i => sendCountTo (destLists.getD q []) i * w) N,
    houts q hq, DoOut_retain destLists bufs w hq hbufs, retainRun,
    List.take_take, Nat.min_self, offSum_mul, ← take_add_slice, ← Nat.add_mul]
  have hbq : (bufs.getD q []).length
      = (offSum (sendCountTo (destLists.getD q [])) N
          + retainCount (destLists.getD q [])) * w := hbufs q hq
  rw [← hbq, List.take_length]

theorem Do_ok {N : Nat} (destLists : List (List Int)) (bufs : List (List Nat))
    {q : Nat} (plan : CommunicationPlan)
    (hlen : (bufs.getD q []).length
      = (plan.totalSend + plan.localRetainCount) * plan.elementWidth) :
    Do N destLists bufs q plan
      = .ok (DoOut N destLists bufs plan.elementWidth q) := by
  unfold Do
  rw [if_pos hlen]

theorem build_ok {N : Nat} {tag : Int} {destLists : List (List Int)} {q : Nat}
    {plan : CommunicationPlan} (h : build N tag destLists q = .ok plan) :
    plan = buildPlan N tag destLists q := by
  unfold build at h
  split at h
  · exact (Except.ok.inj h).symm
  · exact Except.noConfusion h

/-! ### Claim theorems -/

/-- C1: after build completes on all processes of the group, for every
ordered pair of processes (p, q) the sendCounts entry for destination q
declared by process p equals the recvCounts entry for peer p observed by
process q — the cross-process equality the count handshake establishes. -/
theorem crossProcessEquality (N : Nat) (tag : Int)
    (destLists : List (List Int)) (p q : Nat)
    (planp planq : CommunicationPlan) (hp : p < N) (hq : q < N)
    (hbp : build N tag destLists p = .ok planp)
    (hbq : build N tag destLists q = .ok planq) :
    planq.recvCounts.getD p 0 = planp.sendCounts.getD q 0 := by
  rw [build_ok hbp, build_ok hbq]
  simp only [buildPlan]
  rw [getD_map_range _ _ hp, getD_map_range _ _ hq]
  rfl

/-- C1 witness: a concrete two-process group with one cross send and one
retained element. -/
theorem crossProcessEquality_witness :
    (buildPlan 2 0 [[1, -1], [0]] 1).recvCounts.getD 0 0
      = (buildPlan 2 0 [[1, -1], [0]] 0).sendCounts.getD 1 0 :=
  crossProcessEquality 2 0 [[1, -1], [0]] 0 1
    (buildPlan 2 0 [[1, -1], [0]] 0) (buildPlan 2 0 [[1, -1], [0]] 1)
    (by decide) (by decide) rfl rfl

/-- C3: the built plan satisfies totalReceive = sum recvCounts +
localRetainCount, and totalReceive (the usage's zcomm.nreturn) is the
element length of the receive buffer Do produces. -/
theorem totalReceiveSpec (N : Nat) (tag : Int) (destLists : List (List Int))
    (bufs : List (List Nat)) (w q : Nat) (hq : q < N)
    (hbufs : ∀ p, p < N →
      (bufs.getD p []).length = sendBufLen (destLists.getD p []) N * w) :
    (buildPlan N tag destLists q).totalReceive
        = (buildPlan N tag destLists q).recvCounts.sum
          + (buildPlan N tag destLists q).localRetainCount
      ∧ (DoOut N destLists bufs w q).length
        = (buildPlan N tag destLists q).totalReceive * w := by
  constructor
  · simp only [buildPlan]
    rw [sum_range_map]
    rfl
  · rw [DoOut_length destLists bufs w hq hbufs]
    rfl

/-- C3 witness: a concrete two-process group, element width 1. -/
theorem totalReceiveSpec_witness :
    (buildPlan 2 0 [[1, -1], [0]] 0).totalReceive
        = (buildPlan 2 0 [[1, -1], [0]] 0).recvCounts.sum
          + (buildPlan 2 0 [[1, -1], [0]] 0).localRetainCount
      ∧ (DoOut 2 [[1, -1], [0]] [[10, 99], [20]] 1 0).length
        = (buildPlan 2 0 [[1, -1], [0]] 0).totalReceive * 1 :=
  totalReceiveSpec 2 0 [[1, -1], [0]] [[10, 99], [20]] 1 0
    (by decide) (by decide)

/-- C7: build fails with InvalidDestination exactly when some entry of the
local destination list is neither a rank in [0, N) nor the retain
sentinel; on that failure no plan is produced. -/
theorem buildInvalidDestination (N : Nat) (tag : Int)
    (destLists : List (List Int)) (q : Nat) :
    build N tag destLists q = .error .InvalidDestination
      ↔ ∃ e ∈ destLists.getD q [],
          ¬ ((0 ≤ e ∧ e < (N : Int)) ∨ e = sentinel) := by
  have hval : ∀ e : Int,
      validEntry N e = true ↔ ((0 ≤ e ∧ e < (N : Int)) ∨ e = sentinel) := by
    intro e
    simp [validEntry]
  by_cases hall : (destLists.getD q []).all (validEntry N) = true
  · unfold build
    rw [if_pos hall]
    constructor
    · intro h
      exact Except.noConfusion h
    · rintro ⟨e, he, hne⟩
      exact absurd ((hval e).mp (List.all_eq_true.mp hall e he)) hne
  · unfold build
    rw [if_neg hall]
    constructor
    · intro _
      rw [List.all_eq_true] at hall
      push_neg at hall
      rcases hall with ⟨e, he, hne⟩
      exact ⟨e, he, fun hc => hne ((hval e).mpr hc)⟩
    · intro _
      rfl

/-- C8: Do fails with BufferSizeMismatch exactly when the supplied send
buffer length differs from totalSend + localRetainCount elements at the
plan's element width; a matching length never raises it. -/
theorem doBufferSizeMismatch (N : Nat) (destLists : List (List Int))
    (bufs : List (List Nat)) (q : Nat) (plan : CommunicationPlan) :
    Do N destLists bufs q plan = .error .BufferSizeMismatch
      ↔ (bufs.getD q []).length
          ≠ (plan.totalSend + plan.localRetainCount) * plan.elementWidth := by
  unfold Do
  by_cases h : (bufs.getD q []).length
      = (plan.totalSend + plan.localRetainCount) * plan.elementWidth
  · rw [if_pos h]
    constructor
    · intro hc
      exact Except.noConfusion hc
    · intro hc
      exact absurd h hc
  · rw [if_neg h]
    constructor
    · intro _
      exact h
    · intro _
      rfl

/-- C9 counterexample: setElementWidth is an operation on the plan and it
changes the elementWidth attribute, so it is not the case that no
operation on the plan mutates any plan attribute. -/
theorem planWidthChanges :
    (setElementWidth (buildPlan 1 0 [[]] 0) 4).elementWidth
      ≠ (buildPlan 1 0 [[]] 0).elementWidth := by decide

/-- C9 amended: Do and DoReverse consume the plan read-only (they are
functions of it and return only a buffer), and setElementWidth — the one
reconfiguring operation — changes only elementWidth, so sequential calls
observe identical sendCounts, recvCounts, sendOrder, recvOffsets,
totalSend and totalReceive (and groupSize, channelTag,
localRetainCount). -/
theorem planTopologyReadOnly (plan : CommunicationPlan) (w : Nat) :
    (setElementWidth plan w).sendCounts = plan.sendCounts
      ∧ (setElementWidth plan w).recvCounts = plan.recvCounts
      ∧ (setElementWidth plan w).sendOrder = plan.sendOrder
      ∧ (setElementWidth plan w).recvOffsets = plan.recvOffsets
      ∧ (setElementWidth plan w).totalSend = plan.totalSend
      ∧ (setElementWidth plan w).totalReceive = plan.totalReceive
      ∧ (setElementWidth plan w).localRetainCount = plan.localRetainCount
      ∧ (setElementWidth plan w).groupSize = plan.groupSize
      ∧ (setElementWidth plan w).channelTag = plan.channelTag :=
  ⟨rfl, rfl, rfl, rfl, rfl, rfl, rfl, rfl, rfl⟩

/-- C10: a freshly built plan has element width 8 (the usage exchanges
8-byte float64 elements before any set_nbytes call), and the first Do
succeeds on a buffer sized for 8-byte elements without any prior
setElementWidth call. -/
theorem defaultElementWidth (N : Nat) (tag : Int)
    (destLists : List (List Int)) (bufs : List (List Nat)) (q : Nat)
    (hlen : (bufs.getD q []).length = sendBufLen (destLists.getD q []) N * 8) :
    (buildPlan N tag destLists q).elementWidth = 8
      ∧ Do N destLists bufs q (buildPlan N tag destLists q)
        = .ok (DoOut N destLists bufs 8 q) := by
  refine ⟨rfl, ?_⟩
  have h : (bufs.getD q []).length
      = ((buildPlan N tag destLists q).totalSend
          + (buildPlan N tag destLists q).localRetainCount)
        * (buildPlan N tag destLists q).elementWidth := by
    simpa [buildPlan, sendBufLen] using hlen
  unfold Do
  rw [if_pos h]
  rfl

/-- C10 witness: a concrete two-process group with 8-byte elements. -/
theorem defaultElementWidth_witness :
    (buildPlan 2 0 [[1, -1], [0]] 0).elementWidth = 8
      ∧ Do 2 [[1, -1], [0]] [List.replicate 16 3, List.replicate 8 4] 0
            (buildPlan 2 0 [[1, -1], [0]] 0)
        = .ok (DoOut 2 [[1, -1], [0]]
            [List.replicate 16 3, List.replicate 8 4] 8 0) :=
  defaultElementWidth 2 0 [[1, -1], [0]]
    [List.replicate 16 3, List.replicate 8 4] 0 (by decide)

/-- C2: one plan, two Do calls at width 8 and then (after setElementWidth
to 4) at width 4, with payload buffers of matching element counts: both
succeed and produce the correct outputs of their widths, and the width
reconfiguration leaves every element-unit count and offset of the plan
unchanged. -/
theorem widthIndependence (N : Nat) (tag : Int) (destLists : List (List Int))
    (bufs8 bufs4 : List (List Nat)) (q : Nat) (hq : q < N)
    (h8 : ∀ p, p < N →
      (bufs8.getD p []).length = sendBufLen (destLists.getD p []) N * 8)
    (h4 : ∀ p, p < N →
      (bufs4.getD p []).length = sendBufLen (destLists.getD p []) N * 4) :
    Do N destLists bufs8 q (buildPlan N tag destLists q)
        = .ok (DoOut N destLists bufs8 8 q)
      ∧ (DoOut N destLists bufs8 8 q).length
        = (buildPlan N tag destLists q).totalReceive * 8
      ∧ Do N destLists bufs4 q (setElementWidth (buildPlan N tag destLists q) 4)
        = .ok (DoOut N destLists bufs4 4 q)
      ∧ (DoOut N destLists bufs4 4 q).length
        = (buildPlan N tag destLists q).totalReceive * 4
      ∧ (setElementWidth (buildPlan N tag destLists q) 4).sendCounts
        = (buildPlan N tag destLists q).sendCounts
      ∧ (setElementWidth (buildPlan N tag destLists q) 4).recvCounts
        = (buildPlan N tag destLists q).recvCounts
      ∧ (setElementWidth (buildPlan N tag destLists q) 4).recvOffsets
        = (buildPlan N tag destLists q).recvOffsets
      ∧ (setElementWidth (buildPlan N tag destLists q) 4).sendOrder
        = (buildPlan N tag destLists q).sendOrder
      ∧ (setElementWidth (buildPlan N tag destLists q) 4).totalSend
        = (buildPlan N tag destLists q).totalSend
      ∧ (setElementWidth (buildPlan N tag destLists q) 4).totalReceive
        = (buildPlan N tag destLists q).totalReceive := by
  refine ⟨?_, ?_, ?_, ?_, rfl, rfl, rfl, rfl, rfl, rfl⟩
  · exact Do_ok destLists bufs8 _
      (by simpa [buildPlan, sendBufLen] using h8 q hq)
  · rw [DoOut_length destLists bufs8 8 hq h8]
    rfl
  · exact Do_ok destLists bufs4 _
      (by simpa [setElementWidth, buildPlan, sendBufLen] using h4 q hq)
  · rw [DoOut_length destLists bufs4 4 hq h4]
    rfl

/-- C2 witness: a concrete two-process group, one plan, an 8-byte call
followed by a 4-byte call after reconfiguration. -/
theorem widthIndependence_witness :
    Do 2 [[1, -1], [0]] [List.replicate 16 3, List.replicate 8 4] 0
        (buildPlan 2 0 [[1, -1], [0]] 0)
      = .ok (DoOut 2 [[1, -1], [0]]
          [List.replicate 16 3, List.replicate 8 4] 8 0)
      ∧ (DoOut 2 [[1, -1], [0]]
          [List.replicate 16 3, List.replicate 8 4] 8 0).length
        = (buildPlan 2 0 [[1, -1], [0]] 0).totalReceive * 8
      ∧ Do 2 [[1, -1], [0]] [List.replicate 8 5, List.replicate 4 6] 0
          (setElementWidth (buildPlan 2 0 [[1, -1], [0]] 0) 4)
        = .ok (DoOut 2 [[1, -1], [0]]
            [List.replicate 8 5, List.replicate 4 6] 4 0)
      ∧ (DoOut 2 [[1, -1], [0]]
          [List.replicate 8 5, List.replicate 4 6] 4 0).length
        = (buildPlan 2 0 [[1, -1], [0]] 0).totalReceive * 4
      ∧ (setElementWidth (buildPlan 2 0 [[1, -1], [0]] 0) 4).sendCounts
        = (buildPlan 2 0 [[1, -1], [0]] 0).sendCounts
      ∧ (setElementWidth (buildPlan 2 0 [[1, -1], [0]] 0) 4).recvCounts
        = (buildPlan 2 0 [[1, -1], [0]] 0).recvCounts
      ∧ (setElementWidth (buildPlan 2 0 [[1, -1], [0]] 0) 4).recvOffsets
        = (buildPlan 2 0 [[1, -1], [0]] 0).recvOffsets
      ∧ (setElementWidth (buildPlan 2 0 [[1, -1], [0]] 0) 4).sendOrder
        = (buildPlan 2 0 [[1, -1], [0]] 0).sendOrder
      ∧ (setElementWidth (buildPlan 2 0 [[1, -1], [0]] 0) 4).totalSend
        = (buildPlan 2 0 [[1, -1], [0]] 0).totalSend
      ∧ (setElementWidth (buildPlan 2 0 [[1, -1], [0]] 0) 4).totalReceive
        = (buildPlan 2 0 [[1, -1], [0]] 0).totalReceive :=
  widthIndependence 2 0 [[1, -1], [0]]
    [List.replicate 16 3, List.replicate 8 4]
    [List.replicate 8 5, List.replicate 4 6] 0
    (by decide) (by decide) (by decide)

/-- C4: the j-th element with sentinel destination (occupying the j-th
trailing slot of the send buffer, per sendOrder) is copied byte for byte
into the reserved trailing slot of the same process's receive buffer,
after all peer contributions; the copied bytes come from the process's
own send buffer only, so the result is independent of what any peer
sends. -/
theorem retainFidelity (N : Nat) (destLists : List (List Int))
    (bufs : List (List Nat)) (w q j : Nat) (hq : q < N)
    (hj : j < retainCount (destLists.getD q []))
    (hbufs : ∀ p, p < N →
      (bufs.getD p []).length = sendBufLen (destLists.getD p []) N * w) :
    ((DoOut N destLists bufs w q).drop
        ((sumRecv destLists q N + j) * w)).take w
      = ((bufs.getD q []).drop
          ((offSum (sendCountTo (destLists.getD q [])) N + j) * w)).take w := by
  have hmul : (j + 1) * w ≤ retainCount (destLists.getD q []) * w :=
    Nat.mul_le_mul_right w hj
  rw [Nat.add_mul, Nat.one_mul] at hmul
  rw [Nat.add_mul, ← List.drop_drop,
    DoOut_retain destLists bufs w hq hbufs, retainRun, List.drop_take,
    List.take_take, inf_eq_left.mpr (by omega : w ≤
      retainCount (destLists.getD q []) * w - j * w),
    List.drop_drop, ← Nat.add_mul]

/-- C4 witness: a concrete two-process group; the single retained element
of process 0 lands unchanged in the trailing slot. -/
theorem retainFidelity_witness :
    ((DoOut 2 [[1, -1], [0]] [[10, 99], [20]] 1 0).drop
        ((sumRecv [[1, -1], [0]] 0 2 + 0) * 1)).take 1
      = (([[10, 99], [20]].getD 0 []).drop
          ((offSum (sendCountTo ([[1, -1], [0]].getD 0 [])) 2 + 0) * 1)).take 1 :=
  retainFidelity 2 [[1, -1], [0]] [[10, 99], [20]] 1 0 0
    (by decide) (by decide) (by decide)

/-- C5: the round trip DoReverse after Do returns every element to its
origin process and reconstructs the origin's send buffer exactly — the
original per-destination grouping of X with its original local ordering
(sendOrder groups stably by rank, ties in index order): with the plan
built from the destination family and reconfigured to width w, the
forward call succeeds, and the reverse call on the family of all forward
outputs succeeds and returns X itself. -/
theorem reverseSymmetry (N : Nat) (tag : Int) (destLists : List (List Int))
    (bufs : List (List Nat)) (w q : Nat) (hq : q < N)
    (hbufs : ∀ p, p < N →
      (bufs.getD p []).length = sendBufLen (destLists.getD p []) N * w) :
    Do N destLists bufs q (setElementWidth (buildPlan N tag destLists q) w)
        = .ok (DoOut N destLists bufs w q)
      ∧ DoReverse N destLists
          ((List.range N).map (fun p => DoOut N destLists bufs w p)) q
          (setElementWidth (buildPlan N tag destLists q) w)
        = .ok (bufs.getD q []) := by
  constructor
  · exact Do_ok destLists bufs _
      (by simpa [setElementWidth, buildPlan, sendBufLen] using hbufs q hq)
  · have hc : ((((List.range N).map
          (fun p => DoOut N destLists bufs w p)).getD q []).length)
        = (setElementWidth (buildPlan N tag destLists q) w).totalReceive
          * (setElementWidth (buildPlan N tag destLists q) w).elementWidth := by
      rw [getD_map_range _ _ hq, DoOut_length destLists bufs w hq hbufs]
      rfl
    unfold DoReverse
    rw [if_pos hc]
    exact congrArg Except.ok (roundTrip destLists bufs w hq hbufs)

/-- C5 witness: a concrete two-process group at width 1; the reverse call
returns exactly the original send buffer of process 0. -/
theorem reverseSymmetry_witness :
    Do 2 [[1, -1], [0]] [[10, 99], [20]] 0
        (setElementWidth (buildPlan 2 0 [[1, -1], [0]] 0) 1)
      = .ok (DoOut 2 [[1, -1], [0]] [[10, 99], [20]] 1 0)
      ∧ DoReverse 2 [[1, -1], [0]]
          ((List.range 2).map
            (fun p => DoOut 2 [[1, -1], [0]] [[10, 99], [20]] 1 p)) 0
          (setElementWidth (buildPlan 2 0 [[1, -1], [0]] 0) 1)
        = .ok ([[10, 99], [20]].getD 0 []) :=
  reverseSymmetry 2 0 [[1, -1], [0]] [[10, 99], [20]] 1 0
    (by decide) (by decide)

/-- C6: a successful Do produces a receive buffer of exactly
plan.totalReceive elements, and each peer p's contribution sits at that
peer's recvOffsets slot: the slice there, of recvCounts[p] elements, is
byte for byte the run peer p sent toward q. -/
theorem doResultGuarantee (N : Nat) (tag : Int) (destLists : List (List Int))
    (bufs : List (List Nat)) (w q : Nat) (hq : q < N)
    (hbufs : ∀ p, p < N →
      (bufs.getD p []).length = sendBufLen (destLists.getD p []) N * w) :
    (DoOut N destLists bufs w q).length
        = (buildPlan N tag destLists q).totalReceive * w
      ∧ ∀ p, p < N →
        ((DoOut N destLists bufs w q).drop
            ((buildPlan N tag destLists q).recvOffsets.getD p 0 * w)).take
          ((buildPlan N tag destLists q).recvCounts.getD p 0 * w)
        = sendRun (destLists.getD p []) (bufs.getD p []) w q := by
  constructor
  · rw [DoOut_length destLists bufs w hq hbufs]
    rfl
  · intro p hp
    have h1 : (buildPlan N tag destLists q).recvOffsets.getD p 0
        = sumRecv destLists q p := by
      simp only [buildPlan]
      exact getD_map_range _ _ hp
    have h2 : (buildPlan N tag destLists q).recvCounts.getD p 0
        = recvCountFrom destLists p q := by
      simp only [buildPlan]
      exact getD_map_range _ _ hp
    rw [h1, h2]
    exact DoOut_slice destLists bufs w hp hq hbufs

/-- C6 witness: a concrete two-process group at width 1: the output of
process 0 has totalReceive elements and peer 1's contribution sits at
peer 1's receive offset. -/
theorem doResultGuarantee_witness :
    (DoOut 2 [[1, -1], [0]] [[10, 99], [20]] 1 0).length
        = (buildPlan 2 0 [[1, -1], [0]] 0).totalReceive * 1
      ∧ ((DoOut 2 [[1, -1], [0]] [[10, 99], [20]] 1 0).drop
            ((buildPlan 2 0 [[1, -1], [0]] 0).recvOffsets.getD 1 0 * 1)).take
          ((buildPlan 2 0 [[1, -1], [0]] 0).recvCounts.getD 1 0 * 1)
        = sendRun ([[1, -1], [0]].getD 1 []) ([[10, 99], [20]].getD 1 []) 1 0 :=
  ⟨(doResultGuarantee 2 0 [[1, -1], [0]] [[10, 99], [20]] 1 0
      (by decide) (by decide)).1,
   (doResultGuarantee 2 0 [[1, -1], [0]] [[10, 99], [20]] 1 0
      (by decide) (by decide)).2 1 (by decide)⟩

end ZComm
